import Mathlib

/-!
Verification of the employee-analysis dashboard (employees.py).

The core routine is the animated bar renderer:

  container = st.empty()
  df_temp = df.copy()
  df_temp[y_col] = 0
  if df[y_col].max() > 8:
      step = 1
      step_time = 0.3
  else:
      step = 0.1
      step_time = 0.1
  for nrow in range(df.shape[0]):
      for current_value in np.arange(0, df[y_col].iloc[nrow], step):
          df_temp.at[nrow, y_col] = current_value + step
          container.bar_chart(data=df_temp, x=x_col, y=y_col, color=bar_color)
          time.sleep(step_time/df[y_col].max())

Numeric values are modelled as rationals; a chart table is its label column
plus its numeric column; a repaint is recorded as a frame carrying the row
being swept and the snapshot of the mutated working table.
-/

namespace Employees

/-- A two-column chart table: the label column (x_col) and the numeric
column (y_col) of the data frame passed to animate_plot. -/
structure Table where
  labels : List String
  values : List ℚ
deriving DecidableEq

/-- One repaint event (one call of container.bar_chart): the row index the
outer loop is sweeping and the snapshot of df_temp at that repaint. -/
structure Frame where
  row : ℕ
  snap : Table
deriving DecidableEq

/-- Maximum of a numeric column, df[y_col].max() (arbitrary for the empty
column, which pandas maps to NaN; no claim uses that case). -/
def colMax : List ℚ → ℚ
  | [] => 0
  | [x] => x
  | x :: y :: xs => max x (colMax (y :: xs))

/-- The step chosen on lines 58-63: 1 if the column maximum exceeds 8,
otherwise 0.1. -/
def stepOf (ys : List ℚ) : ℚ := if 8 < colMax ys then 1 else 1 / 10

/-- The base delay step_time chosen on lines 58-63: 0.3 if the column
maximum exceeds 8, otherwise 0.1. -/
def stepTimeOf (ys : List ℚ) : ℚ := if 8 < colMax ys then 3 / 10 else 1 / 10

/-- Length of np.arange(0, stop, s) for positive s: the number of k with
k * s < stop, i.e. the ceiling of stop / s (0 when stop is nonpositive). -/
def arangeLen (stop s : ℚ) : ℕ := ⌈stop / s⌉₊

/-- np.arange(0, stop, s): the values 0, s, 2s, ... strictly below stop. -/
def arange (stop s : ℚ) : List ℚ :=
  (List.range (arangeLen stop s)).map (fun k : ℕ => (k : ℚ) * s)

/-- The value a completed sweep leaves in its row: the least multiple of
the step at or above the target (0 for a nonpositive target). -/
def finalVal (t s : ℚ) : ℚ := (arangeLen t s : ℚ) * s

/-- The inner loop of lines 65-67 for one row: for each current_value in
np.arange(0, t, s), write current_value + s into the row and repaint. -/
def sweepFrames (temp : Table) (row : ℕ) (t s : ℚ) : List Frame :=
  (arange t s).map fun v =>
    { row := row, snap := { temp with values := temp.values.set row (v + s) } }

/-- The state of df_temp after one row's inner loop: the last repainted
snapshot, or the incoming state when the loop body never ran. -/
def sweepFinal (temp : Table) (row : ℕ) (t s : ℚ) : Table :=
  ((sweepFrames temp row t s).map Frame.snap).getLastD temp

/-- The outer loop of line 64 from a given row onward: sweep each remaining
target in order, threading the mutated working table. Returns the repaint
frames in order. -/
def animFrom (s : ℚ) : ℕ → Table → List ℚ → List Frame
  | _, _, [] => []
  | row, temp, t :: ts =>
    sweepFrames temp row t s ++ animFrom s (row + 1) (sweepFinal temp row t s) ts

/-- The state of df_temp after the outer loop from a given row onward. -/
def animFinal (s : ℚ) : ℕ → Table → List ℚ → Table
  | _, temp, [] => temp
  | row, temp, t :: ts => animFinal s (row + 1) (sweepFinal temp row t s) ts

/-- df_temp right after df_temp[y_col] = 0: labels kept, numeric column
zeroed. -/
def zeroed (df : Table) : Table := { df with values := df.values.map fun _ => 0 }

/-- animate_plot(df, x_col, y_col, color), observed as its sequence of
repaint frames. -/
def animate_plot (df : Table) : List Frame :=
  animFrom (stepOf df.values) 0 (zeroed df) df.values

/-- The Display Table (df_temp) at the moment animate_plot returns. -/
def finalDisplay (df : Table) : Table :=
  animFinal (stepOf df.values) 0 (zeroed df) df.values

/-- The number of time.sleep calls performed: one per repaint (line 68). -/
def sleepCalls (df : Table) : ℕ := (animate_plot df).length

/-- One row of the employee data frame, restricted to the columns the
sidebar filters read. -/
structure Row where
  employeeID : String
  hometown : String
  unit : String
deriving DecidableEq

/-- Does the pattern occur at the head of the character list? -/
def startsWithL : List Char → List Char → Bool
  | [], _ => true
  | _ :: _, [] => false
  | a :: as, b :: bs => a == b && startsWithL as bs

/-- Does the pattern occur anywhere in the character list? -/
def occursIn (pat : List Char) : List Char → Bool
  | [] => pat.isEmpty
  | c :: rest => startsWithL pat (c :: rest) || occursIn pat rest

/-- The characters of a string, lowercased. -/
def lowerData (s : String) : List Char := s.data.map Char.toLower

/-- Model of the external pandas call Series.str.contains(pat, case=False)
on line 207: case-insensitive containment of the entered text. (Pandas
reads the pattern as a regular expression; on patterns free of regex
metacharacters, as the spec assumes, that is substring containment.) -/
def strContainsCI (pat s : String) : Bool := occursIn (lowerData pat) (lowerData s)

/-- Lines 205-207: the Employee ID text filter. Python's truthiness test
"if text_input_id:" skips the filter exactly when the text is empty. -/
def filterByID (txt : String) (rows : List Row) : List Row :=
  if txt ≠ "" then rows.filter (fun r => strContainsCI txt r.employeeID) else rows

/-- Lines 211-213: the Hometown selectbox filter; "All" skips the filter,
any other selection keeps the rows whose Hometown equals it. -/
def filterByHometown (sel : String) (rows : List Row) : List Row :=
  if sel ≠ "All" then rows.filter (fun r => r.hometown == sel) else rows

/-! Basic facts about the embedded operations. -/

lemma stepOf_pos (ys : List ℚ) : 0 < stepOf ys := by
  rw [stepOf]; split <;> norm_num

lemma le_colMax (ys : List ℚ) : ∀ x ∈ ys, x ≤ colMax ys := by
  induction ys with
  | nil => intro x hx; cases hx
  | cons a l ih =>
    intro x hx
    cases l with
    | nil =>
      rw [List.mem_singleton] at hx
      rw [hx]; exact le_refl _
    | cons b m =>
      rcases List.mem_cons.1 hx with rfl | hx'
      · exact le_max_left _ _
      · exact le_trans (ih x hx') (le_max_right _ _)

lemma colMax_mem (ys : List ℚ) (h : ys ≠ []) : colMax ys ∈ ys := by
  induction ys with
  | nil => exact absurd rfl h
  | cons a l ih =>
    cases l with
    | nil => exact List.mem_singleton.2 rfl
    | cons b m =>
      show max a (colMax (b :: m)) ∈ a :: b :: m
      rcases max_cases a (colMax (b :: m)) with ⟨he, _⟩ | ⟨he, _⟩
      · rw [he]; exact List.mem_cons_self _ _
      · rw [he]; exact List.mem_cons_of_mem _ (ih (by simp))

lemma getD_set_self (l : List ℚ) (i : ℕ) (v : ℚ) (h : i < l.length) :
    (l.set i v).getD i 0 = v := by
  rw [List.getD_eq_getElem?_getD, List.getElem?_set_self (by simpa using h)]
  rfl

lemma getD_set_ne (l : List ℚ) {i j : ℕ} (v : ℚ) (h : i ≠ j) :
    (l.set i v).getD j 0 = l.getD j 0 := by
  rw [List.getD_eq_getElem?_getD, List.getElem?_set_ne h, ← List.getD_eq_getElem?_getD]

lemma set_getD_self : ∀ (l : List ℚ) (i : ℕ), l.set i (l.getD i 0) = l
  | [], _ => rfl
  | _ :: _, 0 => rfl
  | a :: l, n + 1 => by
    rw [List.getD_cons_succ]
    show a :: l.set n (l.getD n 0) = a :: l
    rw [set_getD_self l n]

lemma getD_mem : ∀ (l : List ℚ) (j : ℕ), j < l.length → l.getD j 0 ∈ l
  | [], j, h => absurd h (by simp)
  | a :: l, 0, _ => List.mem_cons_self _ _
  | a :: l, j + 1, h => List.mem_cons_of_mem _ (getD_mem l j (by simpa using h))

lemma getD_map_zero : ∀ (l : List ℚ) (j : ℕ), (l.map fun _ => (0 : ℚ)).getD j 0 = 0
  | [], _ => rfl
  | _ :: _, 0 => rfl
  | _ :: l, j + 1 => getD_map_zero l j

lemma zeroed_getD (df : Table) (j : ℕ) : (zeroed df).values.getD j 0 = 0 :=
  getD_map_zero df.values j

lemma zeroed_length (df : Table) : (zeroed df).values.length = df.values.length := by
  simp [zeroed]

lemma arange_length (t s : ℚ) : (arange t s).length = arangeLen t s := by
  rw [arange, List.length_map, List.length_range]

lemma sweepFrames_length (temp : Table) (row : ℕ) (t s : ℚ) :
    (sweepFrames temp row t s).length = arangeLen t s := by
  rw [sweepFrames, List.length_map, arange_length]

lemma arangeLen_zero (s : ℚ) : arangeLen 0 s = 0 := by
  simp [arangeLen]

lemma arangeLen_of_nonpos {t s : ℚ} (hs : 0 < s) (h : t ≤ 0) : arangeLen t s = 0 := by
  rw [arangeLen, Nat.ceil_eq_zero]
  exact div_nonpos_iff.mpr (Or.inr ⟨h, hs.le⟩)

lemma finalVal_zero (s : ℚ) : finalVal 0 s = 0 := by
  simp [finalVal, arangeLen_zero]

lemma finalVal_nonneg (t : ℚ) {s : ℚ} (hs : 0 < s) : 0 ≤ finalVal t s := by
  rw [finalVal]
  exact mul_nonneg (Nat.cast_nonneg _) hs.le

lemma le_finalVal (t : ℚ) {s : ℚ} (hs : 0 < s) : t ≤ finalVal t s := by
  rw [finalVal, arangeLen]
  calc t = t / s * s := by field_simp
    _ ≤ (⌈t / s⌉₊ : ℚ) * s := mul_le_mul_of_nonneg_right (Nat.le_ceil _) hs.le

lemma finalVal_lt {t s : ℚ} (hs : 0 < s) (ht : 0 ≤ t) : finalVal t s < t + s := by
  rw [finalVal, arangeLen]
  have h1 : (⌈t / s⌉₊ : ℚ) < t / s + 1 := Nat.ceil_lt_add_one (div_nonneg ht hs.le)
  calc (⌈t / s⌉₊ : ℚ) * s < (t / s + 1) * s := mul_lt_mul_of_pos_right h1 hs
    _ = t + s := by field_simp

lemma finalVal_mul (k : ℕ) {s : ℚ} (hs : 0 < s) : finalVal ((k : ℚ) * s) s = (k : ℚ) * s := by
  rw [finalVal, arangeLen, mul_div_cancel_right₀ _ (ne_of_gt hs), Nat.ceil_natCast]

/-- After one row's inner loop the working table is the incoming one with
that row set to the least multiple of the step at or above the target,
provided the row held 0 before (which the outer loop guarantees). -/
lemma sweepFinal_eq (temp : Table) (row : ℕ) (t s : ℚ)
    (h0 : temp.values.getD row 0 = 0) :
    sweepFinal temp row t s = { temp with values := temp.values.set row (finalVal t s) } := by
  rw [sweepFinal, sweepFrames, arange]
  rcases Nat.eq_zero_or_pos (arangeLen t s) with hz | hp
  · rw [hz]
    simp only [List.range_zero, List.map_nil, List.getLastD_nil]
    have hfv : finalVal t s = 0 := by rw [finalVal, hz]; simp
    rw [hfv, ← h0, set_getD_self]
  · obtain ⟨n, hn⟩ : ∃ n, arangeLen t s = n + 1 := ⟨_, (Nat.succ_pred_eq_of_pos hp).symm⟩
    rw [hn, List.range_succ]
    simp only [List.map_append, List.map_map, List.map_cons, List.map_nil]
    rw [List.getLastD_concat]
    show { temp with values := temp.values.set row ((n : ℚ) * s + s) }
        = { temp with values := temp.values.set row (finalVal t s) }
    have hv : (n : ℚ) * s + s = finalVal t s := by
      rw [finalVal, hn]
      push_cast
      ring
    rw [hv]

lemma sweepFinal_labels (temp : Table) (row : ℕ) (t s : ℚ)
    (h0 : temp.values.getD row 0 = 0) :
    (sweepFinal temp row t s).labels = temp.labels := by
  rw [sweepFinal_eq temp row t s h0]

/-- Characterization of the Display Table when the outer loop returns,
sweeping the targets ts from a given row onward: rows before the starting
row are untouched, each processed row holds the least multiple of the step
at or above its target, and rows past the end stay at 0. -/
lemma animFinal_spec (s : ℚ) (ts : List ℚ) :
    ∀ (row : ℕ) (temp : Table),
      row + ts.length = temp.values.length →
      (∀ j, row ≤ j → temp.values.getD j 0 = 0) →
      (animFinal s row temp ts).labels = temp.labels ∧
      (animFinal s row temp ts).values.length = temp.values.length ∧
      ∀ j, (animFinal s row temp ts).values.getD j 0 =
        if j < row then temp.values.getD j 0
        else finalVal (ts.getD (j - row) 0) s := by
  induction ts with
  | nil =>
    intro row temp _ hzero
    have hred : animFinal s row temp [] = temp := rfl
    rw [hred]
    refine ⟨rfl, rfl, fun j => ?_⟩
    split
    · rfl
    · next h =>
      rw [List.getD_nil, hzero j (le_of_not_lt h), finalVal_zero]
  | cons t ts ih =>
    intro row temp hlen hzero
    have h0 : temp.values.getD row 0 = 0 := hzero row le_rfl
    have hlen0 : row + (ts.length + 1) = temp.values.length := by
      rw [← hlen, List.length_cons]
    have hrowlt : row < temp.values.length := by omega
    have hstep : animFinal s row temp (t :: ts)
        = animFinal s (row + 1) (sweepFinal temp row t s) ts := rfl
    have hsf := sweepFinal_eq temp row t s h0
    have hlen' : (row + 1) + ts.length
        = (sweepFinal temp row t s).values.length := by
      rw [hsf]
      show row + 1 + ts.length = (temp.values.set row (finalVal t s)).length
      rw [List.length_set]
      omega
    have hzero' : ∀ j, row + 1 ≤ j → (sweepFinal temp row t s).values.getD j 0 = 0 := by
      intro j hj
      rw [hsf]
      show (temp.values.set row (finalVal t s)).getD j 0 = 0
      rw [getD_set_ne _ _ (by omega)]
      exact hzero j (by omega)
    obtain ⟨hl, hlen2, hvals⟩ := ih (row + 1) (sweepFinal temp row t s) hlen' hzero'
    rw [hstep]
    refine ⟨hl.trans (sweepFinal_labels temp row t s h0), ?_, fun j => ?_⟩
    · rw [hlen2, hsf]
      show (temp.values.set row (finalVal t s)).length = temp.values.length
      rw [List.length_set]
    · rw [hvals j, hsf]
      rcases lt_trichotomy j row with hlt | heq | hgt
      · rw [if_pos (by omega), if_pos hlt]
        show (temp.values.set row (finalVal t s)).getD j 0 = temp.values.getD j 0
        exact getD_set_ne _ _ (by omega)
      · rw [heq, if_pos (by omega), if_neg (lt_irrefl row)]
        show (temp.values.set row (finalVal t s)).getD row 0
            = finalVal ((t :: ts).getD (row - row) 0) s
        rw [getD_set_self _ _ _ hrowlt, Nat.sub_self, List.getD_cons_zero]
      · rw [if_neg (by omega), if_neg (by omega)]
        congr 1
        rw [show j - row = (j - (row + 1)) + 1 by omega, List.getD_cons_succ]

/-- Characterization of every repaint frame produced by the outer loop
from a given row onward: each frame belongs to the sweep of some remaining
row i and shows rows before the starting row untouched, already-swept rows
at their final value, the swept row at the (k+1)-st multiple of the step,
and not-yet-swept rows at 0. -/
lemma animFrom_spec (s : ℚ) (ts : List ℚ) :
    ∀ (row : ℕ) (temp : Table),
      row + ts.length = temp.values.length →
      (∀ j, row ≤ j → temp.values.getD j 0 = 0) →
      ∀ f ∈ animFrom s row temp ts,
        ∃ i, i < ts.length ∧ f.row = row + i ∧
          f.snap.labels = temp.labels ∧
          f.snap.values.length = temp.values.length ∧
          ∃ k, k < arangeLen (ts.getD i 0) s ∧
            ∀ j, f.snap.values.getD j 0 =
              if j < row then temp.values.getD j 0
              else if j < row + i then finalVal (ts.getD (j - row) 0) s
              else if j = row + i then ((k : ℚ) + 1) * s
              else 0 := by
  induction ts with
  | nil =>
    intro row temp _ _ f hf
    have hred : animFrom s row temp [] = [] := rfl
    rw [hred] at hf
    cases hf
  | cons t ts ih =>
    intro row temp hlen hzero f hf
    have h0 : temp.values.getD row 0 = 0 := hzero row le_rfl
    have hlen0 : row + (ts.length + 1) = temp.values.length := by
      rw [← hlen, List.length_cons]
    have hrowlt : row < temp.values.length := by omega
    have hstep : animFrom s row temp (t :: ts)
        = sweepFrames temp row t s ++ animFrom s (row + 1) (sweepFinal temp row t s) ts := rfl
    rw [hstep] at hf
    rcases List.mem_append.1 hf with hf1 | hf2
    · rw [sweepFrames, arange] at hf1
      obtain ⟨v, hv, rfl⟩ := List.mem_map.1 hf1
      obtain ⟨k, hk, rfl⟩ := List.mem_map.1 hv
      have hklt : k < arangeLen t s := List.mem_range.1 hk
      refine ⟨0, by rw [List.length_cons]; omega, rfl, rfl, ?_, k, ?_, fun j => ?_⟩
      · show (temp.values.set row ((k : ℚ) * s + s)).length = temp.values.length
        rw [List.length_set]
      · rw [List.getD_cons_zero]; exact hklt
      · show (temp.values.set row ((k : ℚ) * s + s)).getD j 0 = _
        rcases lt_trichotomy j row with hlt | heq | hgt
        · rw [if_pos hlt, getD_set_ne _ _ (by omega)]
        · rw [heq, if_neg (lt_irrefl row), if_neg (by omega), if_pos (by omega)]
          rw [getD_set_self _ _ _ hrowlt]
          ring
        · rw [if_neg (by omega), if_neg (by omega), if_neg (by omega)]
          rw [getD_set_ne _ _ (by omega)]
          exact hzero j (by omega)
    · have hsf := sweepFinal_eq temp row t s h0
      rw [hsf] at hf2
      have hlen' : (row + 1) + ts.length
          = ({ temp with values := temp.values.set row (finalVal t s) } : Table).values.length := by
        show _ = (temp.values.set row (finalVal t s)).length
        rw [List.length_set]; omega
      have hzero' : ∀ j, row + 1 ≤ j →
          ({ temp with values := temp.values.set row (finalVal t s) } : Table).values.getD j 0 = 0 := by
        intro j hj
        show (temp.values.set row (finalVal t s)).getD j 0 = 0
        rw [getD_set_ne _ _ (by omega)]
        exact hzero j (by omega)
      obtain ⟨i, hi, hrow, hlab, hlen2, k, hk, hvals⟩ :=
        ih (row + 1) _ hlen' hzero' f hf2
      refine ⟨i + 1, by rw [List.length_cons]; omega, by rw [hrow]; omega,
        hlab, ?_, k, ?_, fun j => ?_⟩
      · rw [hlen2]
        show (temp.values.set row (finalVal t s)).length = temp.values.length
        rw [List.length_set]
      · rw [List.getD_cons_succ]; exact hk
      · rw [hvals j]
        rcases lt_trichotomy j row with hlt | heq | hgt
        · rw [if_pos (by omega), if_pos hlt]
          show (temp.values.set row (finalVal t s)).getD j 0 = temp.values.getD j 0
          exact getD_set_ne _ _ (by omega)
        · rw [heq, if_pos (by omega), if_neg (lt_irrefl row), if_pos (by omega)]
          show (temp.values.set row (finalVal t s)).getD row 0
              = finalVal ((t :: ts).getD (row - row) 0) s
          rw [getD_set_self _ _ _ hrowlt, Nat.sub_self, List.getD_cons_zero]
        · rw [if_neg (show ¬j < row + 1 by omega), if_neg (show ¬j < row by omega)]
          rcases lt_trichotomy j (row + 1 + i) with h1 | h1 | h1
          · rw [if_pos (show j < row + 1 + i from h1), if_pos (show j < row + (i + 1) by omega)]
            congr 1
            rw [show j - row = (j - (row + 1)) + 1 by omega, List.getD_cons_succ]
          · rw [if_neg (show ¬j < row + 1 + i by omega), if_pos (show j = row + 1 + i from h1),
              if_neg (show ¬j < row + (i + 1) by omega), if_pos (show j = row + (i + 1) by omega)]
          · rw [if_neg (show ¬j < row + 1 + i by omega), if_neg (show ¬j = row + 1 + i by omega),
              if_neg (show ¬j < row + (i + 1) by omega), if_neg (show ¬j = row + (i + 1) by omega)]

/-- The total number of repaints: one per inner-loop iteration, summed
over all rows. -/
lemma animFrom_length (s : ℚ) (ts : List ℚ) :
    ∀ (row : ℕ) (temp : Table),
      (animFrom s row temp ts).length = (ts.map fun t => arangeLen t s).sum := by
  induction ts with
  | nil => intro row temp; rfl
  | cons t ts ih =>
    intro row temp
    show (sweepFrames temp row t s ++ animFrom s (row + 1) (sweepFinal temp row t s) ts).length
        = ((t :: ts).map fun t => arangeLen t s).sum
    rw [List.length_append, sweepFrames_length, ih, List.map_cons, List.sum_cons]

/-- The number of repaints tagged with a given row index. -/
lemma animFrom_countP (s : ℚ) (ts : List ℚ) :
    ∀ (row r : ℕ) (temp : Table),
      ((animFrom s row temp ts).countP fun f => f.row == r) =
        if row ≤ r ∧ r < row + ts.length then arangeLen (ts.getD (r - row) 0) s else 0 := by
  induction ts with
  | nil =>
    intro row r temp
    have hred : animFrom s row temp [] = [] := rfl
    rw [hred, List.countP_nil, List.length_nil, if_neg (by omega)]
  | cons t ts ih =>
    intro row r temp
    have hstep : animFrom s row temp (t :: ts)
        = sweepFrames temp row t s ++ animFrom s (row + 1) (sweepFinal temp row t s) ts := rfl
    rw [hstep, List.countP_append, ih]
    have hsw : ((sweepFrames temp row t s).countP fun f => f.row == r)
        = if row = r then arangeLen t s else 0 := by
      rcases eq_or_ne row r with heq | hne
      · rw [if_pos heq, ← sweepFrames_length temp row t s]
        apply List.countP_eq_length.mpr
        intro f hfm
        rw [sweepFrames] at hfm
        obtain ⟨v, _, rfl⟩ := List.mem_map.1 hfm
        simpa using heq
      · rw [if_neg hne]
        apply List.countP_eq_zero.mpr
        intro f hfm
        rw [sweepFrames] at hfm
        obtain ⟨v, _, rfl⟩ := List.mem_map.1 hfm
        simpa using hne
    rw [hsw, List.length_cons]
    rcases eq_or_ne row r with heq | hne
    · rw [if_pos heq, if_neg (by omega), if_pos (by omega), heq, Nat.sub_self,
        List.getD_cons_zero, Nat.add_zero]
    · rw [if_neg hne]
      rcases Nat.lt_or_ge r (row + 1) with hlt | hge
      · rw [if_neg (by omega), if_neg (by omega)]
      · rcases Nat.lt_or_ge r (row + 1 + ts.length) with hub | hub
        · rw [if_pos (by omega), if_pos (by omega), Nat.zero_add]
          congr 1
          rw [show r - row = (r - (row + 1)) + 1 by omega, List.getD_cons_succ]
        · rw [if_neg (by omega), if_neg (by omega)]

lemma list_ext_getD {l₁ l₂ : List ℚ} (hlen : l₁.length = l₂.length)
    (h : ∀ j, l₁.getD j 0 = l₂.getD j 0) : l₁ = l₂ := by
  apply List.ext_getElem?
  intro n
  rcases Nat.lt_or_ge n l₁.length with hn | hn
  · have h1 := List.getElem?_eq_getElem hn
    have h2 := List.getElem?_eq_getElem (hlen ▸ hn)
    have h3 := h n
    rw [List.getD_eq_getElem?_getD, List.getD_eq_getElem?_getD, h1, h2] at h3
    rw [h1, h2]
    simpa using h3
  · rw [List.getElem?_eq_none (by omega), List.getElem?_eq_none (by omega)]

lemma sum_arangeLen_eq_zero (s : ℚ) (l : List ℚ) :
    (l.map fun t => arangeLen t s).sum = 0 ↔ ∀ t ∈ l, arangeLen t s = 0 := by
  induction l with
  | nil => simp
  | cons a l ih =>
    rw [List.map_cons, List.sum_cons, Nat.add_eq_zero, ih]
    constructor
    · rintro ⟨ha, hl⟩ t ht
      rcases List.mem_cons.1 ht with rfl | ht'
      · exact ha
      · exact hl t ht'
    · intro hall
      exact ⟨hall a (List.mem_cons_self _ _), fun t ht => hall t (List.mem_cons_of_mem _ ht)⟩

/-! Specializations of the loop lemmas to animate_plot itself. -/

/-- Every frame animate_plot repaints: it belongs to the sweep of some row
i, shows earlier rows fully grown, row i at the (k+1)-st multiple of the
step, later rows at 0, and keeps the label column. -/
lemma animate_plot_mem (df : Table) :
    ∀ f ∈ animate_plot df,
      ∃ i, i < df.values.length ∧ f.row = i ∧
        f.snap.labels = df.labels ∧
        f.snap.values.length = df.values.length ∧
        ∃ k, k < arangeLen (df.values.getD i 0) (stepOf df.values) ∧
          ∀ j, f.snap.values.getD j 0 =
            if j < i then finalVal (df.values.getD j 0) (stepOf df.values)
            else if j = i then ((k : ℚ) + 1) * stepOf df.values
            else 0 := by
  intro f hf
  obtain ⟨i, hi, hrow, hlab, hlen, k, hk, hvals⟩ :=
    animFrom_spec (stepOf df.values) df.values 0 (zeroed df)
      (by rw [zeroed_length, Nat.zero_add]) (fun j _ => zeroed_getD df j) f hf
  refine ⟨i, hi, by rw [hrow, Nat.zero_add], hlab, by rw [hlen, zeroed_length], k, hk,
    fun j => ?_⟩
  rw [hvals j, if_neg (by omega), Nat.zero_add, Nat.sub_zero]

/-- The Display Table at return: each row holds the least multiple of the
step at or above its target; labels and row count are unchanged. -/
lemma animate_plot_final (df : Table) :
    (finalDisplay df).labels = df.labels ∧
    (finalDisplay df).values.length = df.values.length ∧
    ∀ j, (finalDisplay df).values.getD j 0
        = finalVal (df.values.getD j 0) (stepOf df.values) := by
  obtain ⟨hl, hlen, hvals⟩ :=
    animFinal_spec (stepOf df.values) df.values 0 (zeroed df)
      (by rw [zeroed_length, Nat.zero_add]) (fun j _ => zeroed_getD df j)
  have hfd : finalDisplay df = animFinal (stepOf df.values) 0 (zeroed df) df.values := rfl
  refine ⟨hl, by rw [hfd, hlen, zeroed_length], fun j => ?_⟩
  rw [hfd, hvals j, if_neg (by omega), Nat.sub_zero]

lemma animate_plot_length (df : Table) :
    (animate_plot df).length
      = (df.values.map fun t => arangeLen t (stepOf df.values)).sum :=
  animFrom_length (stepOf df.values) df.values 0 (zeroed df)

lemma animate_plot_countP (df : Table) (i : ℕ) (hi : i < df.values.length) :
    ((animate_plot df).countP fun f => f.row == i)
      = arangeLen (df.values.getD i 0) (stepOf df.values) := by
  have h := animFrom_countP (stepOf df.values) df.values 0 i (zeroed df)
  rw [show animate_plot df = animFrom (stepOf df.values) 0 (zeroed df) df.values from rfl,
    h, if_pos (by omega), Nat.sub_zero]

/-! Correctness of the containment test used by the Employee ID filter. -/

lemma startsWithL_iff : ∀ (p l : List Char), startsWithL p l = true ↔ ∃ post, l = p ++ post
  | [], l => by
    rw [startsWithL]
    exact ⟨fun _ => ⟨l, rfl⟩, fun _ => rfl⟩
  | a :: as, [] => by
    rw [startsWithL]
    constructor
    · intro hcon; cases hcon
    · rintro ⟨post, h⟩; cases h
  | a :: as, b :: bs => by
    rw [startsWithL, Bool.and_eq_true, beq_iff_eq, startsWithL_iff as bs]
    constructor
    · rintro ⟨rfl, post, rfl⟩
      exact ⟨post, rfl⟩
    · rintro ⟨post, h⟩
      injection h with h1 h2
      exact ⟨h1.symm, post, h2⟩

lemma occursIn_iff : ∀ (p l : List Char), occursIn p l = true ↔ ∃ pre post, l = pre ++ p ++ post
  | p, [] => by
    rw [occursIn, List.isEmpty_iff]
    constructor
    · rintro rfl
      exact ⟨[], [], rfl⟩
    · rintro ⟨pre, post, h⟩
      obtain ⟨h1, -⟩ := List.append_eq_nil.1 h.symm
      exact (List.append_eq_nil.1 h1).2
  | p, c :: rest => by
    rw [occursIn, Bool.or_eq_true, startsWithL_iff, occursIn_iff p rest]
    constructor
    · rintro (⟨post, h⟩ | ⟨pre, post, h⟩)
      · exact ⟨[], post, by simpa using h⟩
      · refine ⟨c :: pre, post, ?_⟩
        rw [List.cons_append, List.cons_append, ← h]
    · rintro ⟨pre, post, h⟩
      cases pre with
      | nil => exact Or.inl ⟨post, by simpa using h⟩
      | cons x xs =>
        right
        rw [List.cons_append, List.cons_append] at h
        injection h with h1 h2
        exact ⟨xs, post, h2⟩

/-! Concrete evaluations used by the witnesses and counterexamples. -/

lemma stepOf_small : stepOf [(1 : ℚ) / 20] = 1 / 10 := by
  norm_num [stepOf, colMax]

lemma stepOf_tiny : stepOf [(1 : ℚ) / 10] = 1 / 10 := by
  norm_num [stepOf, colMax]

lemma arangeLen_small : arangeLen ((1 : ℚ) / 20) (1 / 10) = 1 := by
  rw [arangeLen, Nat.ceil_eq_iff (by norm_num)]
  norm_num

lemma arangeLen_tiny : arangeLen ((1 : ℚ) / 10) (1 / 10) = 1 := by
  rw [arangeLen, Nat.ceil_eq_iff (by norm_num)]
  norm_num

/-- The whole frame sequence for the one-row table with target 0.05: a
single repaint showing 0.1. -/
lemma animate_small :
    animate_plot { labels := ["a"], values := [1 / 20] }
      = [{ row := 0, snap := { labels := ["a"], values := [1 / 10] } }] := by
  have h1 : animate_plot { labels := ["a"], values := [1 / 20] }
      = sweepFrames { labels := ["a"], values := [0] } 0 ((1 : ℚ) / 20) (stepOf [(1 : ℚ) / 20])
        ++ animFrom (stepOf [(1 : ℚ) / 20]) 1
            (sweepFinal { labels := ["a"], values := [0] } 0 ((1 : ℚ) / 20)
              (stepOf [(1 : ℚ) / 20])) [] := rfl
  rw [h1]
  rw [show animFrom (stepOf [(1 : ℚ) / 20]) 1
        (sweepFinal { labels := ["a"], values := [0] } 0 ((1 : ℚ) / 20)
          (stepOf [(1 : ℚ) / 20])) [] = [] from rfl]
  rw [List.append_nil, sweepFrames, arange, stepOf_small, arangeLen_small]
  rw [show List.range 1 = [0] from rfl]
  simp only [List.map_cons, List.map_nil, List.set_cons_zero]
  norm_num

/-- The whole frame sequence for the one-row table with target 0.1: a
single repaint showing exactly the target. -/
lemma animate_tiny :
    animate_plot { labels := ["a"], values := [1 / 10] }
      = [{ row := 0, snap := { labels := ["a"], values := [1 / 10] } }] := by
  have h1 : animate_plot { labels := ["a"], values := [1 / 10] }
      = sweepFrames { labels := ["a"], values := [0] } 0 ((1 : ℚ) / 10) (stepOf [(1 : ℚ) / 10])
        ++ animFrom (stepOf [(1 : ℚ) / 10]) 1
            (sweepFinal { labels := ["a"], values := [0] } 0 ((1 : ℚ) / 10)
              (stepOf [(1 : ℚ) / 10])) [] := rfl
  rw [h1]
  rw [show animFrom (stepOf [(1 : ℚ) / 10]) 1
        (sweepFinal { labels := ["a"], values := [0] } 0 ((1 : ℚ) / 10)
          (stepOf [(1 : ℚ) / 10])) [] = [] from rfl]
  rw [List.append_nil, sweepFrames, arange, stepOf_tiny, arangeLen_tiny]
  rw [show List.range 1 = [0] from rfl]
  simp only [List.map_cons, List.map_nil, List.set_cons_zero]
  norm_num

/-! The claims. -/

/-- C3: animate_plot's step-size selection is deterministic and depends
only on the maximum of the numeric column: if that maximum strictly
exceeds 8 the step is 1 with delay base 0.3, otherwise the step is 0.1
with delay base 0.1. -/
theorem C3_step_policy (df : Table) (hne : df.values ≠ []) :
    colMax df.values ∈ df.values ∧
    (∀ t ∈ df.values, t ≤ colMax df.values) ∧
    (8 < colMax df.values → stepOf df.values = 1 ∧ stepTimeOf df.values = 3 / 10) ∧
    (colMax df.values ≤ 8 → stepOf df.values = 1 / 10 ∧ stepTimeOf df.values = 1 / 10) ∧
    (∀ ys : List ℚ, colMax ys = colMax df.values →
      stepOf ys = stepOf df.values ∧ stepTimeOf ys = stepTimeOf df.values) := by
  refine ⟨colMax_mem _ hne, le_colMax _, fun h => ?_, fun h => ?_, fun ys hys => ?_⟩
  · exact ⟨by rw [stepOf, if_pos h], by rw [stepTimeOf, if_pos h]⟩
  · exact ⟨by rw [stepOf, if_neg (not_lt.2 h)], by rw [stepTimeOf, if_neg (not_lt.2 h)]⟩
  · constructor <;> simp only [stepOf, stepTimeOf, hys]

theorem C3_witness :
    stepOf [5, 12] = 1 ∧ stepTimeOf [5, 12] = 3 / 10 := by
  have h := C3_step_policy { labels := ["18-19", "20-29"], values := [5, 12] } (by simp)
  exact h.2.2.1 (by norm_num [colMax])

/-- C1 (amended): when every target is a nonnegative integer multiple of
the selected step — in particular for the integer example with step 1 —
the Display Table equals the Target Table exactly when animate_plot
returns. In general each row ends at the least multiple of the step at or
above its target, which can exceed a fractional target. -/
theorem C1_final_display_eq (df : Table)
    (h : ∀ t ∈ df.values, ∃ k : ℕ, t = (k : ℚ) * stepOf df.values) :
    finalDisplay df = df := by
  obtain ⟨hl, hlen, hvals⟩ := animate_plot_final df
  have hv : (finalDisplay df).values = df.values := by
    apply list_ext_getD hlen
    intro j
    rw [hvals j]
    rcases Nat.lt_or_ge j df.values.length with hj | hj
    · obtain ⟨k, hk⟩ := h _ (getD_mem _ _ hj)
      rw [hk, finalVal_mul k (stepOf_pos df.values)]
    · have hz : df.values.getD j 0 = 0 := by
        rw [List.getD_eq_getElem?_getD, List.getElem?_eq_none (by omega)]
        rfl
      rw [hz, finalVal_zero]
  calc finalDisplay df = ⟨(finalDisplay df).labels, (finalDisplay df).values⟩ := rfl
    _ = ⟨df.labels, df.values⟩ := by rw [hl, hv]
    _ = df := rfl

theorem C1_witness :
    finalDisplay { labels := ["18-19", "20-29"], values := [5, 12] }
      = { labels := ["18-19", "20-29"], values := [5, 12] } := by
  apply C1_final_display_eq
  intro t ht
  have hs : stepOf (({ labels := ["18-19", "20-29"], values := [5, 12] } : Table).values)
      = 1 := by
    norm_num [stepOf, colMax]
  rw [hs]
  rcases List.mem_cons.1 ht with rfl | ht'
  · exact ⟨5, by norm_num⟩
  · rcases List.mem_cons.1 ht' with rfl | ht''
    · exact ⟨12, by norm_num⟩
    · cases ht''

/-- C1 counterexample: the one-row table with the nonnegative target 0.05
ends with Display value 0.1, not 0.05 — the claim fails for non-multiples
of the step. -/
theorem C1_counterexample :
    ((0 : ℚ) ≤ 1 / 20) ∧
    (finalDisplay { labels := ["a"], values := [1 / 20] }).values = [1 / 10] ∧
    ([1 / 10] : List ℚ) ≠ [1 / 20] := by
  refine ⟨by norm_num, ?_, by simp⟩
  obtain ⟨-, hlen, hvals⟩ := animate_plot_final { labels := ["a"], values := [1 / 20] }
  apply list_ext_getD (by rw [hlen]; rfl)
  intro j
  cases j with
  | zero =>
    rw [hvals 0, List.getD_cons_zero, List.getD_cons_zero, stepOf_small, finalVal,
      arangeLen_small]
    norm_num
  | succ n =>
    rw [hvals (n + 1)]
    simp [finalVal_zero]

/-- C2 (amended): throughout the animation on a nonnegative table, every
row's displayed value stays between 0 and the least multiple of the step
at or above that row's target (a bound strictly below target + step); the
bound collapses to the target itself exactly for targets that are
multiples of the step, so small fractional targets can be overshot. -/
theorem C2_display_bounds (df : Table) (hnn : ∀ t ∈ df.values, 0 ≤ t) :
    ∀ f ∈ animate_plot df, ∀ j : ℕ,
      0 ≤ f.snap.values.getD j 0 ∧
      f.snap.values.getD j 0 ≤ finalVal (df.values.getD j 0) (stepOf df.values) ∧
      finalVal (df.values.getD j 0) (stepOf df.values)
        < df.values.getD j 0 + stepOf df.values := by
  intro f hf j
  have hs := stepOf_pos df.values
  have htj : 0 ≤ df.values.getD j 0 := by
    rcases Nat.lt_or_ge j df.values.length with hj | hj
    · exact hnn _ (getD_mem _ _ hj)
    · rw [List.getD_eq_getElem?_getD, List.getElem?_eq_none (by omega)]
      exact le_refl 0
  obtain ⟨i, hi, hrow, hlab, hlen, k, hk, hvals⟩ := animate_plot_mem df f hf
  refine ⟨?_, ?_, finalVal_lt hs htj⟩
  · rw [hvals j]
    split_ifs with h1 h2
    · exact finalVal_nonneg _ hs
    · exact mul_nonneg (by positivity) hs.le
    · exact le_refl 0
  · rw [hvals j]
    split_ifs with h1 h2
    · exact le_refl _
    · rw [h2, finalVal]
      apply mul_le_mul_of_nonneg_right _ hs.le
      exact_mod_cast Nat.succ_le_of_lt hk
    · exact finalVal_nonneg _ hs

theorem C2_witness :
    (0 ≤ ((⟨0, ⟨["a"], [1 / 10]⟩⟩ : Frame)).snap.values.getD 0 0) ∧
    ((⟨0, ⟨["a"], [1 / 10]⟩⟩ : Frame)).snap.values.getD 0 0
      ≤ finalVal ([(1 : ℚ) / 10].getD 0 0) (stepOf [(1 : ℚ) / 10]) := by
  have h := C2_display_bounds { labels := ["a"], values := [1 / 10] }
    (by intro t ht; rw [List.mem_singleton] at ht; rw [ht]; norm_num)
    ⟨0, ⟨["a"], [1 / 10]⟩⟩ (by rw [animate_tiny]; exact List.mem_singleton_self _) 0
  exact ⟨h.1, h.2.1⟩

/-- C2 counterexample: on the nonnegative one-row table with target 0.05
the single frame displays 0.1, strictly above the row's target — the
displayed value is not clamped by the target. -/
theorem C2_counterexample :
    animate_plot { labels := ["a"], values := [1 / 20] }
      = [{ row := 0, snap := { labels := ["a"], values := [1 / 10] } }] ∧
    ¬((1 : ℚ) / 10 ≤ 1 / 20) := by
  exact ⟨animate_small, by norm_num⟩

/-- C4: for each row the inner loop repaints exactly ceil(target / step)
times; a target of 0 yields zero repaints. -/
theorem C4_repaint_count (df : Table) (i : ℕ) (hi : i < df.values.length)
    (_hnn : 0 ≤ df.values.getD i 0) :
    ((animate_plot df).countP fun f => f.row == i)
      = ⌈df.values.getD i 0 / stepOf df.values⌉₊ := by
  rw [animate_plot_countP df i hi]
  rfl

theorem C4_witness :
    ((animate_plot { labels := ["HR", "IT"], values := [2, 3] }).countP
        fun f => f.row == 0) = 20 ∧
    ((animate_plot { labels := ["HR", "IT"], values := [2, 3] }).countP
        fun f => f.row == 1) = 30 := by
  have hs : stepOf [(2 : ℚ), 3] = 1 / 10 := by norm_num [stepOf, colMax]
  constructor
  · rw [C4_repaint_count { labels := ["HR", "IT"], values := [2, 3] } 0 (by simp)
      (by rw [List.getD_cons_zero]; norm_num)]
    rw [List.getD_cons_zero, hs]
    norm_num
  · rw [C4_repaint_count { labels := ["HR", "IT"], values := [2, 3] } 1 (by simp)
      (by rw [List.getD_cons_succ, List.getD_cons_zero]; norm_num)]
    rw [List.getD_cons_succ, List.getD_cons_zero, hs]
    norm_num

/-- C5: every frame keeps the label column and the row order of the input:
during the sweep of row i, rows before i show the value their own sweep
left, rows after i show 0, and only row i's numeric value is being
changed. -/
theorem C5_frame_isolation (df : Table) :
    ∀ f ∈ animate_plot df,
      f.snap.labels = df.labels ∧
      f.row < df.values.length ∧
      f.snap.values.length = df.values.length ∧
      (∀ j, j < f.row →
        f.snap.values.getD j 0 = finalVal (df.values.getD j 0) (stepOf df.values)) ∧
      (∀ j, f.row < j → f.snap.values.getD j 0 = 0) := by
  intro f hf
  obtain ⟨i, hi, hrow, hlab, hlen, k, hk, hvals⟩ := animate_plot_mem df f hf
  refine ⟨hlab, by omega, hlen, fun j hj => ?_, fun j hj => ?_⟩
  · rw [hvals j, if_pos (show j < i by omega)]
  · rw [hvals j, if_neg (show ¬j < i by omega), if_neg (show ¬j = i by omega)]

theorem C5_witness :
    ((⟨0, ⟨["a"], [1 / 10]⟩⟩ : Frame)).snap.labels = ["a"] ∧
    ((⟨0, ⟨["a"], [1 / 10]⟩⟩ : Frame)).snap.values.getD 1 0 = 0 := by
  have h := C5_frame_isolation { labels := ["a"], values := [1 / 10] }
    ⟨0, ⟨["a"], [1 / 10]⟩⟩ (by rw [animate_tiny]; exact List.mem_singleton_self _)
  exact ⟨h.1, h.2.2.2.2 1 (by norm_num)⟩

/-- C6: animate_plot terminates — the frame sequence is finite with
exactly one frame per inner-loop iteration — and each row's sweep stops
with the displayed value at or beyond its target. -/
theorem C6_termination (df : Table) (_hnn : ∀ t ∈ df.values, 0 ≤ t) :
    (animate_plot df).length
      = (df.values.map fun t => arangeLen t (stepOf df.values)).sum ∧
    ∀ j, j < df.values.length →
      df.values.getD j 0 ≤ (finalDisplay df).values.getD j 0 := by
  refine ⟨animate_plot_length df, fun j hj => ?_⟩
  obtain ⟨-, -, hvals⟩ := animate_plot_final df
  rw [hvals j]
  exact le_finalVal _ (stepOf_pos df.values)

theorem C6_witness :
    (animate_plot { labels := ["a"], values := [1 / 10] }).length
      = ([(1 : ℚ) / 10].map fun t => arangeLen t (stepOf [(1 : ℚ) / 10])).sum ∧
    [(1 : ℚ) / 10].getD 0 0
      ≤ (finalDisplay { labels := ["a"], values := [1 / 10] }).values.getD 0 0 := by
  have h := C6_termination { labels := ["a"], values := [1 / 10] }
    (by intro t ht; rw [List.mem_singleton] at ht; rw [ht]; norm_num)
  exact ⟨h.1, h.2 0 (by simp)⟩

/-- C9: the division step_time / max in the sleep call happens once per
repaint, and a repaint only happens when some target is strictly positive,
which forces the column maximum (the divisor) to be strictly positive; an
all-zero table produces no frames and no sleep calls. -/
theorem C9_sleep_safety (df : Table) :
    (animate_plot df ≠ [] → 0 < colMax df.values) ∧
    ((∀ t ∈ df.values, t = 0) → animate_plot df = [] ∧ sleepCalls df = 0) := by
  constructor
  · intro hne
    have hlen : (animate_plot df).length ≠ 0 := by
      intro hcon
      exact hne (List.eq_nil_of_length_eq_zero hcon)
    rw [animate_plot_length df] at hlen
    have hnall : ¬∀ t ∈ df.values, arangeLen t (stepOf df.values) = 0 := by
      intro hall
      exact hlen ((sum_arangeLen_eq_zero _ _).mpr hall)
    push_neg at hnall
    obtain ⟨t, ht, hzero⟩ := hnall
    have hs := stepOf_pos df.values
    have htpos : 0 < t := by
      by_contra hcon
      exact hzero (arangeLen_of_nonpos hs (le_of_not_lt hcon))
    exact lt_of_lt_of_le htpos (le_colMax _ t ht)
  · intro hall
    have hlen : (animate_plot df).length = 0 := by
      rw [animate_plot_length df]
      apply (sum_arangeLen_eq_zero _ _).mpr
      intro t ht
      rw [hall t ht, arangeLen_zero]
    exact ⟨List.eq_nil_of_length_eq_zero hlen, hlen⟩

theorem C9_witness :
    0 < colMax [(1 : ℚ) / 10] ∧
    (animate_plot { labels := ["a"], values := [0] } = []
      ∧ sleepCalls { labels := ["a"], values := [0] } = 0) := by
  constructor
  · exact (C9_sleep_safety { labels := ["a"], values := [1 / 10] }).1
      (by rw [animate_tiny]; simp)
  · exact (C9_sleep_safety { labels := ["a"], values := [0] }).2
      (by intro t ht; rw [List.mem_singleton] at ht; exact ht)

/-- C10: animate_plot still terminates on tables with negative values — a
row with a negative target gets an empty np.arange range, so it produces
zero frames and its displayed value stays 0. -/
theorem C10_negative_target (df : Table) (i : ℕ) (hi : i < df.values.length)
    (hneg : df.values.getD i 0 < 0) :
    (animate_plot df).length
      = (df.values.map fun t => arangeLen t (stepOf df.values)).sum ∧
    ((animate_plot df).countP fun f => f.row == i) = 0 ∧
    (finalDisplay df).values.getD i 0 = 0 := by
  have hs := stepOf_pos df.values
  have hz : arangeLen (df.values.getD i 0) (stepOf df.values) = 0 :=
    arangeLen_of_nonpos hs hneg.le
  refine ⟨animate_plot_length df, ?_, ?_⟩
  · rw [animate_plot_countP df i hi, hz]
  · obtain ⟨-, -, hvals⟩ := animate_plot_final df
    rw [hvals i, finalVal, hz]
    simp

theorem C10_witness :
    ((animate_plot { labels := ["a", "b"], values := [-3, 1 / 10] }).countP
        fun f => f.row == 0) = 0 ∧
    (finalDisplay { labels := ["a", "b"], values := [-3, 1 / 10] }).values.getD 0 0 = 0 := by
  have h := C10_negative_target { labels := ["a", "b"], values := [-3, 1 / 10] } 0
    (by simp) (by rw [List.getD_cons_zero]; norm_num)
  exact ⟨h.2.1, h.2.2⟩

/-- C7: selecting hometown "All" leaves the table unchanged; selecting a
specific hometown keeps exactly the rows whose Hometown equals it. -/
theorem C7_hometown_filter (rows : List Row) (sel : String) (hsel : sel ≠ "All") :
    filterByHometown "All" rows = rows ∧
    (∀ r : Row, r ∈ filterByHometown sel rows ↔ r ∈ rows ∧ r.hometown = sel) ∧
    filterByHometown sel rows = rows.filter fun r => r.hometown == sel := by
  refine ⟨by rw [filterByHometown, if_neg (by simp)], fun r => ?_,
    by rw [filterByHometown, if_pos hsel]⟩
  rw [filterByHometown, if_pos hsel, List.mem_filter]
  constructor
  · rintro ⟨hm, hb⟩
    exact ⟨hm, by simpa using hb⟩
  · rintro ⟨hm, he⟩
    exact ⟨hm, by simpa using he⟩

theorem C7_witness :
    filterByHometown "All" [(⟨"E1", "Springfield", "HR"⟩ : Row)]
      = [(⟨"E1", "Springfield", "HR"⟩ : Row)] ∧
    ((⟨"E1", "Springfield", "HR"⟩ : Row) ∈
        filterByHometown "Springfield" [(⟨"E1", "Springfield", "HR"⟩ : Row)] ↔
      (⟨"E1", "Springfield", "HR"⟩ : Row) ∈ [(⟨"E1", "Springfield", "HR"⟩ : Row)] ∧
        (⟨"E1", "Springfield", "HR"⟩ : Row).hometown = "Springfield") := by
  have h := C7_hometown_filter [(⟨"E1", "Springfield", "HR"⟩ : Row)] "Springfield"
    (by decide)
  exact ⟨h.1, h.2.1 _⟩

/-- C8: an empty Employee ID input applies no filtering; a non-empty input
keeps exactly the rows whose lowercased Employee_ID contains the
lowercased input as a contiguous substring. -/
theorem C8_id_filter (rows : List Row) (txt : String) (htxt : txt ≠ "") :
    filterByID "" rows = rows ∧
    ∀ r : Row, r ∈ filterByID txt rows ↔
      r ∈ rows ∧ ∃ pre post, lowerData r.employeeID = pre ++ lowerData txt ++ post := by
  refine ⟨by rw [filterByID, if_neg (by simp)], fun r => ?_⟩
  rw [filterByID, if_pos htxt, List.mem_filter]
  exact and_congr_right fun _ =>
    (show strContainsCI txt r.employeeID = true ↔ _ from occursIn_iff _ _)

theorem C8_witness :
    ((⟨"EID1", "X", "Y"⟩ : Row) ∈ filterByID "id1" [(⟨"EID1", "X", "Y"⟩ : Row)]) ∧
    filterByID "" [(⟨"EID1", "X", "Y"⟩ : Row)] = [(⟨"EID1", "X", "Y"⟩ : Row)] := by
  have h := C8_id_filter [(⟨"EID1", "X", "Y"⟩ : Row)] "id1" (by decide)
  refine ⟨(h.2 _).mpr ⟨List.mem_singleton_self _, ['e'], [], by decide⟩, h.1⟩

end Employees
